import Mathlib

/-!
Verification of the FastStringBuffer core of libafc
(src/afc/FastStringBuffer.hpp) against its specification.

The C++ template FastStringBuffer<CharType, allocMode> is embedded
shallowly:
* size_t is modelled as Nat with explicit reduction modulo U64 = 2^64
  wherever the C++ performs size_t arithmetic that can wrap;
* CharType values are modelled as Nat (the element type is an opaque
  trivially-copyable value type; only the value 0 - the terminator -
  is distinguished).  sizeof(CharType) = 1 (the char instantiation)
  except where the size enters explicitly (maxCapacityW below takes the
  element width as a parameter);
* the storage block m_buf (a block of m_capacity + 1 elements when not
  null) is modelled as Option (List Nat); the pointer difference
  m_bufEnd - m_buf is the field bsize; m_capacity is the field capacity;
* malloc / realloc success is an explicit Boolean oracle passed to the
  operations that allocate; uninitialized cells are modelled as 0;
* a throwing operation (std::bad_alloc or the capacity-exceeded
  Exception) is modelled by returning the pair (unchanged state, false).
-/

namespace Afc

/-- 2^64, the modulus of size_t arithmetic on the 64-bit platform the
source targets (static asserts in the source pin the overflow rule of
size_t). -/
def U64 : Nat := 2 ^ 64

/-- std::numeric_limits<std::size_t>::max(). -/
def sizeTMax : Nat := 2 ^ 64 - 1

/-- std::numeric_limits<std::ptrdiff_t>::max(). -/
def ptrdiffMax : Nat := 2 ^ 63 - 1

/-- FastStringBuffer::maxCapacity() from the source, parametrised by
w = sizeof(CharType):
min(numeric_limits<size_t>::max() / sizeof(CharType) - 1,
    size_t(numeric_limits<ptrdiff_t>::max())). -/
def maxCapacityW (w : Nat) : Nat := min (sizeTMax / w - 1) ptrdiffMax

/-- The formula claim C9 states: the minimum of the address-space
element ceiling and the size-type maximum element count, with the
terminator subtraction applied to the minimum of the two limits. -/
def specMaxCapacityW (w : Nat) : Nat := min (sizeTMax / w) ptrdiffMax - 1

/-- maxCapacity() for the char instantiation (sizeof(CharType) = 1),
used by the buffer model below. -/
def maxCapacity : Nat := maxCapacityW 1

/-- Modelled from the spec: afc::math::ceilPow2 (declared in
math_utils.h, which is not among the sources) - the next-storage-size
computation "the smallest power of two that is >= requested_capacity+1",
performed in size_t arithmetic, so a result that would be 2^64 wraps
to 0; the caller in nextStorageSize treats 0 as the overflow marker.
The loop doubles an accumulator at most 64 times, which reaches every
power of two representable in the 64-bit size type. -/
def ceilPow2From (x : Nat) : Nat → Nat → Nat
  | p, 0 => p
  | p, fuel + 1 => if x ≤ p then p else ceilPow2From x (2 * p) fuel

/-- Modelled from the spec: afc::math::ceilPow2 itself (math_utils.h is
not among the sources).  Smallest power of two that is >= x, reduced
modulo 2^64 (hence 0 signals overflow, which is what the caller in
nextStorageSize checks for); the bit-smearing implementation the spec
alludes to maps 0 to 0. -/
def ceilPow2 (x : Nat) : Nat :=
  if x = 0 then 0 else ceilPow2From x 1 64 % U64

/-- enum class AllocMode { pow2, accurate }. -/
inductive AllocMode where
  | pow2
  | accurate
deriving DecidableEq

/-- The state of a FastStringBuffer: m_buf (with the storage block it
points to), m_bufEnd - m_buf, and m_capacity. -/
structure FSB where
  buf : Option (List Nat)
  bsize : Nat
  capacity : Nat
deriving DecidableEq

/-- FastStringBuffer() - the default constructor. -/
def emptyFSB : FSB := { buf := none, bsize := 0, capacity := 0 }

/-- static const CharType empty[1] = {CharType(0)} - the shared static
zero-initialized single-element buffer. -/
def emptyStatic : List Nat := [0]

/-- Well-formedness of a buffer state: a null buffer has size 0 (the
pointer difference of two null pointers), the size never exceeds the
capacity, and an allocated storage block holds capacity + 1 elements. -/
def WF (b : FSB) : Prop :=
  (b.buf = none → b.bsize = 0) ∧ b.bsize ≤ b.capacity ∧
    (b.buf.getD (List.replicate (b.capacity + 1) 0)).length = b.capacity + 1

instance (b : FSB) : Decidable (WF b) := by
  unfold WF; exact inferInstance

/-- FastStringBuffer::nextStorageSize (the expected new capacity is
passed in).  none models the badAlloc() call. -/
def nextStorageSize (mode : AllocMode) (capacity : Nat) : Option Nat :=
  match mode with
  | AllocMode.pow2 =>
    let maxStorageSize := maxCapacity + 1
    let requestedStorageSize := (capacity + 1) % U64
    let newStorageSize := ceilPow2 requestedStorageSize
    if newStorageSize = 0 ∨ newStorageSize ≥ maxStorageSize then
      if capacity > maxCapacity then none else some maxStorageSize
    else
      some newStorageSize
  | AllocMode.accurate =>
    if capacity > maxCapacity then none else some (capacity + 1)

/-- std::realloc(old, ss * sizeof(CharType)) on success: the first
min(old length, ss) elements are preserved, the rest of the new block is
uninitialized (modelled as 0).  realloc(nullptr, _) is malloc. -/
def reallocList (old : List Nat) (ss : Nat) : List Nat :=
  old.take ss ++ List.replicate (ss - old.length) 0

/-- FastStringBuffer::expand(std::size_t capacity): computes the next
storage size, reallocates, and only on success overwrites m_buf,
m_bufEnd and m_capacity; on failure (none from nextStorageSize, or a
failing realloc) badAlloc() is reached before any member is assigned,
so the state is returned unchanged with the failure flag. -/
def expandToSt (mode : AllocMode) (allocOk : Bool) (n : Nat) (b : FSB) :
    FSB × Bool :=
  match nextStorageSize mode n with
  | none => (b, false)
  | some ss =>
    if allocOk then
      ({ buf := some (reallocList (b.buf.getD []) ss), bsize := b.bsize,
         capacity := ss - 1 }, true)
    else
      (b, false)

/-- FastStringBuffer::reserve(n): expands only when m_capacity < n. -/
def reserveSt (mode : AllocMode) (allocOk : Bool) (n : Nat) (b : FSB) :
    FSB × Bool :=
  if b.capacity < n then expandToSt mode allocOk n b else (b, true)

/-- FastStringBuffer::expand() (the no-argument overload used by
reserveForOne): fails at once if m_capacity == maxCapacity(); otherwise
doubles (pow2: newCapacity = m_capacity * 2 + 1) or increments
(accurate) in size_t arithmetic and reallocates (newCapacity + 1)
elements. -/
def expandOneSt (mode : AllocMode) (allocOk : Bool) (b : FSB) : FSB × Bool :=
  if b.capacity = maxCapacity then
    (b, false)
  else
    let newCapacity :=
      match mode with
      | AllocMode.pow2 => (b.capacity * 2 + 1) % U64
      | AllocMode.accurate => (b.capacity + 1) % U64
    if allocOk then
      ({ buf := some (reallocList (b.buf.getD []) ((newCapacity + 1) % U64)),
         bsize := b.bsize, capacity := newCapacity }, true)
    else
      (b, false)

/-- FastStringBuffer::reserveForOne(): expands by one growth step only
when the buffer is full (m_buf + m_capacity == m_bufEnd). -/
def reserveForOneSt (mode : AllocMode) (allocOk : Bool) (b : FSB) :
    FSB × Bool :=
  if b.bsize = b.capacity then expandOneSt mode allocOk b else (b, true)

/-- explicit FastStringBuffer(initialCapacity): for a positive request,
computes the storage size and mallocs it; m_bufEnd = m_buf, so size 0;
on failure no object is produced (the constructor throws), modelled by
the failure flag paired with the default state. -/
def sizedCtor (mode : AllocMode) (allocOk : Bool) (n : Nat) : FSB × Bool :=
  if 0 < n then
    match nextStorageSize mode n with
    | none => (emptyFSB, false)
    | some ss =>
      if allocOk then
        ({ buf := some (List.replicate ss 0), bsize := 0,
           capacity := ss - 1 }, true)
      else
        (emptyFSB, false)
  else
    (emptyFSB, true)

/-- Overwrite the storage l at positions pos, pos+1, ... with the given
values, one element at a time, in forward order (the order used by
std::copy / std::copy_n on pointers). -/
def writeAt : List Nat → Nat → List Nat → List Nat
  | l, _, [] => l
  | l, pos, v :: rest => writeAt (l.set pos v) (pos + 1) rest

/-- FastStringBuffer::append(str, n) for a source that does not alias
the buffer storage: copies the values forward to m_bufEnd and advances
m_bufEnd by their number.  (Preconditions - allocated buffer and
size() + n <= m_capacity - are debug assertions; callers below supply
them as hypotheses.) -/
def appendSt (b : FSB) (vals : List Nat) : FSB :=
  { buf := some (writeAt (b.buf.getD []) b.bsize vals),
    bsize := b.bsize + vals.length, capacity := b.capacity }

/-- FastStringBuffer::clear(): m_bufEnd = m_buf. -/
def clearSt (b : FSB) : FSB := { b with bsize := 0 }

/-- FastStringBuffer::resize(newSize): m_bufEnd = m_buf + newSize. -/
def resizeSt (b : FSB) (n : Nat) : FSB := { b with bsize := n }

/-- FastStringBuffer::borrowTail(): returns m_bufEnd, i.e. the offset of
the first unused element. -/
def borrowTailSt (b : FSB) : Nat := b.bsize

/-- FastStringBuffer::returnTail(tail): m_bufEnd = tail (the debug
assertion tail <= m_buf + m_capacity is the caller's obligation). -/
def returnTailSt (b : FSB) (p : Nat) : FSB := { b with bsize := p }

/-- The external producer of the borrowed-tail protocol writing its
values directly at the borrowed position (m_bufEnd), without touching
m_bufEnd itself. -/
def writeTailSt (b : FSB) (vals : List Nat) : FSB :=
  { b with buf := some (writeAt (b.buf.getD []) b.bsize vals) }

/-- FastStringBuffer::detach(): returns m_buf and nulls m_buf and
m_bufEnd.  Note that the source leaves m_capacity untouched. -/
def detachSt (b : FSB) : Option (List Nat) × FSB :=
  (b.buf, { buf := none, bsize := 0, capacity := b.capacity })

/-- FastStringBuffer::c_str(): the null static buffer for a
never-allocated buffer, otherwise the storage after the terminator
write *m_bufEnd = CharType(0), viewed from the returned base pointer. -/
def cStrSt (b : FSB) : List Nat :=
  match b.buf with
  | none => emptyStatic
  | some data => data.set b.bsize 0

/-- The property claim C2 asserts of a capacity produced by the
power-of-two policy for the request n: it is a power of two minus one
(storage size a power of two) and the smallest such value >= n. -/
def IsMinPow2Sub1 (n c : Nat) : Prop :=
  (∃ k, c + 1 = 2 ^ k) ∧ n ≤ c ∧
    ∀ m, (∃ k, m + 1 = 2 ^ k) → n ≤ m → c ≤ m

/-- A call in a reserve/append call sequence (claim C5). -/
inductive BufOp where
  | reserve (n : Nat)
  | append (vals : List Nat)
deriving DecidableEq

/-- The sum of the counts of all appended elements of a sequence. -/
def sumAppends : List BufOp → Nat
  | [] => 0
  | BufOp.reserve _ :: rest => sumAppends rest
  | BufOp.append vs :: rest => vs.length + sumAppends rest

/-- Running a reserve/append call sequence on a buffer (pow2 buffer,
allocator succeeding).  none models a sequence that is outside the
contract: a reserve request not representable in size_t or failing with
AllocationFailure, or an append that violates the capacity
precondition size() + count <= capacity. -/
def runOps : List BufOp → FSB → Option FSB
  | [], b => some b
  | BufOp.reserve n :: rest, b =>
    if n < U64 then
      match reserveSt AllocMode.pow2 true n b with
      | (b2, ok) => if ok then runOps rest b2 else none
    else
      none
  | BufOp.append vs :: rest, b =>
    if b.bsize + vs.length ≤ b.capacity then runOps rest (appendSt b vs)
    else none

/-- The forward element-by-element copy loop of std::copy_n on pointers
into the same storage block: n elements are moved from offset src to
offset dst, one at a time in increasing order, each read seeing the
writes already performed. -/
def copyWithin : List Nat → Nat → Nat → Nat → List Nat
  | l, _, _, 0 => l
  | l, src, dst, n + 1 =>
    copyWithin (l.set dst (l.getD src 0)) (src + 1) (dst + 1) n

/-- buf.append(buf.c_str(), buf.size()): the self-referential append of
claim C8.  c_str() first writes the terminator, then append runs the
forward copy from the returned base pointer (offset 0) over the live
storage, and m_bufEnd advances by size(). -/
def selfAppendSt (b : FSB) : FSB :=
  match b.buf with
  | none => b
  | some _ =>
    { buf := some (copyWithin (cStrSt b) 0 b.bsize b.bsize),
      bsize := b.bsize + b.bsize, capacity := b.capacity }

/-- The buffer states reachable through the public operations of the
pow2 instantiation (claim C10).  Failing operations leave the state
unchanged, so only successful ones appear. -/
inductive Reachable : FSB → Prop where
  | empty : Reachable emptyFSB
  | sized (allocOk : Bool) (n : Nat) (b : FSB) :
      sizedCtor AllocMode.pow2 allocOk n = (b, true) → Reachable b
  | reserve (allocOk : Bool) (n : Nat) (b b2 : FSB) : Reachable b →
      n < U64 → reserveSt AllocMode.pow2 allocOk n b = (b2, true) →
      Reachable b2
  | reserveForOne (allocOk : Bool) (b b2 : FSB) : Reachable b →
      reserveForOneSt AllocMode.pow2 allocOk b = (b2, true) → Reachable b2
  | append (vals : List Nat) (b : FSB) : Reachable b →
      b.bsize + vals.length ≤ b.capacity → Reachable (appendSt b vals)
  | clear (b : FSB) : Reachable b → Reachable (clearSt b)
  | resize (n : Nat) (b : FSB) : Reachable b → n ≤ b.capacity →
      Reachable (resizeSt b n)
  | returnTail (p : Nat) (b : FSB) : Reachable b → p ≤ b.capacity →
      Reachable (returnTailSt b p)
  | writeTail (vals : List Nat) (b : FSB) : Reachable b →
      b.bsize + vals.length ≤ b.capacity → Reachable (writeTailSt b vals)
  | detach (b : FSB) : Reachable b → Reachable (detachSt b).2

lemma maxCapacity_eq : maxCapacity = 2 ^ 63 - 1 := by decide

lemma ceilPow2From_eq (fuel : Nat) :
    ∀ i x : Nat, 1 ≤ x → x ≤ 2 ^ (i + fuel) → i ≤ Nat.clog 2 x →
      ceilPow2From x (2 ^ i) fuel = 2 ^ Nat.clog 2 x := by
  induction fuel with
  | zero =>
    intro i x h1 h2 h3
    have hle : Nat.clog 2 x ≤ i :=
      (Nat.le_pow_iff_clog_le one_lt_two).1 (by simpa using h2)
    have hev : i = Nat.clog 2 x := le_antisymm h3 hle
    simp [ceilPow2From, hev]
  | succ fuel ih =>
    intro i x h1 h2 h3
    by_cases hc : x ≤ 2 ^ i
    · have hle : Nat.clog 2 x ≤ i := (Nat.le_pow_iff_clog_le one_lt_two).1 hc
      have hev : i = Nat.clog 2 x := le_antisymm h3 hle
      simp only [ceilPow2From]
      rw [if_pos hc, hev]
    · have h4 : i + 1 ≤ Nat.clog 2 x := by
        by_contra h
        push_neg at h
        exact hc ((Nat.le_pow_iff_clog_le one_lt_two).2 (by omega))
      have h2a : x ≤ 2 ^ (i + 1 + fuel) := by
        have hre : i + 1 + fuel = i + (fuel + 1) := by ring
        rw [hre]; exact h2
      have hstep := ih (i + 1) x h1 h2a h4
      have h2p : 2 * 2 ^ i = 2 ^ (i + 1) := by rw [pow_succ]; ring
      simp only [ceilPow2From, if_neg hc, h2p]
      exact hstep

lemma ceilPow2_eq_of_le (x : Nat) (h1 : 1 ≤ x) (h2 : x ≤ 2 ^ 63) :
    ceilPow2 x = 2 ^ Nat.clog 2 x := by
  have hx : ¬ x = 0 := by omega
  have key := ceilPow2From_eq 64 0 x h1
    (by simpa using h2.trans (by norm_num)) (Nat.zero_le _)
  have hclog : Nat.clog 2 x ≤ 63 := (Nat.le_pow_iff_clog_le one_lt_two).1 h2
  have hlt : 2 ^ Nat.clog 2 x < U64 := by
    have : (2 : Nat) ^ Nat.clog 2 x ≤ 2 ^ 63 :=
      Nat.pow_le_pow_right (by norm_num) hclog
    have hu : U64 = 2 ^ 64 := rfl
    omega
  have key1 : ceilPow2From x 1 64 = 2 ^ Nat.clog 2 x := by
    simpa using key
  simp only [ceilPow2, if_neg hx, key1]
  exact Nat.mod_eq_of_lt hlt

lemma ceilPow2_zero_of_big (x : Nat) (h1 : 2 ^ 63 < x) (h2 : x ≤ 2 ^ 64) :
    ceilPow2 x = 0 := by
  have hx : ¬ x = 0 := by omega
  have h64 : Nat.clog 2 x ≤ 64 := (Nat.le_pow_iff_clog_le one_lt_two).1 h2
  have h63 : ¬ Nat.clog 2 x ≤ 63 := by
    intro h
    exact absurd ((Nat.le_pow_iff_clog_le one_lt_two).2 h) (by omega)
  have hev : Nat.clog 2 x = 64 := by omega
  have key := ceilPow2From_eq 64 0 x (by omega) (by simpa using h2) (Nat.zero_le _)
  have key1 : ceilPow2From x 1 64 = 2 ^ 64 := by
    have : (2 : Nat) ^ Nat.clog 2 x = 2 ^ 64 := by rw [hev]
    simpa [this] using key
  simp only [ceilPow2, if_neg hx, key1]
  decide

/-- For a legal positive request the pow2 policy returns exactly the
smallest power of two that accommodates the request plus terminator. -/
lemma nextStorageSize_pow2_eq (n : Nat) (h1 : 1 ≤ n) (h2 : n ≤ maxCapacity) :
    nextStorageSize AllocMode.pow2 n = some (2 ^ Nat.clog 2 (n + 1)) := by
  have hmax := maxCapacity_eq
  have hle : n + 1 ≤ 2 ^ 63 := by omega
  have hreq : (n + 1) % U64 = n + 1 := by
    have hu : U64 = 2 ^ 64 := rfl
    exact Nat.mod_eq_of_lt (by omega)
  have hcp : ceilPow2 (n + 1) = 2 ^ Nat.clog 2 (n + 1) :=
    ceilPow2_eq_of_le _ (by omega) hle
  have hclog63 : Nat.clog 2 (n + 1) ≤ 63 :=
    (Nat.le_pow_iff_clog_le one_lt_two).1 hle
  have hpow_le : 2 ^ Nat.clog 2 (n + 1) ≤ 2 ^ 63 :=
    Nat.pow_le_pow_right (by norm_num) hclog63
  have hpos : 0 < 2 ^ Nat.clog 2 (n + 1) := Nat.pos_pow_of_pos _ (by norm_num)
  simp only [nextStorageSize, hreq, hcp]
  by_cases hbig : 2 ^ Nat.clog 2 (n + 1) ≥ maxCapacity + 1
  · have hev : 2 ^ Nat.clog 2 (n + 1) = maxCapacity + 1 := by omega
    rw [if_pos (Or.inr hbig), if_neg (by omega), hev]
  · rw [if_neg (by omega)]

lemma nextStorageSize_none_of_big (mode : AllocMode) (n : Nat)
    (h1 : maxCapacity < n) (h2 : n < U64) :
    nextStorageSize mode n = none := by
  have hmax := maxCapacity_eq
  have hu : U64 = 2 ^ 64 := rfl
  cases mode with
  | accurate => simp [nextStorageSize, h1]
  | pow2 =>
    by_cases hn : n + 1 = U64
    · have hreq : (n + 1) % U64 = 0 := by rw [hn]; exact Nat.mod_self _
      have hcp : ceilPow2 0 = 0 := by decide
      simp only [nextStorageSize, hreq, hcp]
      rw [if_pos (Or.inl trivial), if_pos h1]
    · have hreq : (n + 1) % U64 = n + 1 := Nat.mod_eq_of_lt (by omega)
      have hcp : ceilPow2 (n + 1) = 0 :=
        ceilPow2_zero_of_big _ (by omega) (by omega)
      simp only [nextStorageSize, hreq, hcp]
      rw [if_pos (Or.inl trivial), if_pos h1]

/-- A successful pow2 next-storage-size is a power of two no larger
than the maximal storage size. -/
lemma nextStorageSize_pow2_isPow (n ss : Nat)
    (h : nextStorageSize AllocMode.pow2 n = some ss) :
    ∃ k, k ≤ 63 ∧ ss = 2 ^ k := by
  have hmax := maxCapacity_eq
  have hu : U64 = 2 ^ 64 := rfl
  by_cases h0 : ceilPow2 ((n + 1) % U64) = 0 ∨
      ceilPow2 ((n + 1) % U64) ≥ maxCapacity + 1
  · simp only [nextStorageSize, if_pos h0] at h
    by_cases hcap : n > maxCapacity
    · rw [if_pos hcap] at h; exact absurd h (by simp)
    · rw [if_neg hcap] at h
      refine ⟨63, le_refl _, ?_⟩
      have : ss = maxCapacity + 1 := (Option.some_inj.1 h).symm
      omega
  · simp only [nextStorageSize, if_neg h0] at h
    push_neg at h0
    obtain ⟨hne, hlt⟩ := h0
    have hss : ss = ceilPow2 ((n + 1) % U64) := (Option.some_inj.1 h).symm
    set r := (n + 1) % U64 with hr
    have hrpos : 1 ≤ r := by
      rcases Nat.eq_zero_or_pos r with h' | h'
      · exact absurd (by simp [ceilPow2, h']) hne
      · exact h'
    have hrle : r ≤ 2 ^ 63 := by
      by_contra hbig
      push_neg at hbig
      have hrlt : r < U64 := Nat.mod_lt _ (by norm_num [U64])
      exact hne (ceilPow2_zero_of_big r hbig (by omega))
    have hcp : ceilPow2 r = 2 ^ Nat.clog 2 r := ceilPow2_eq_of_le r hrpos hrle
    have hclog : Nat.clog 2 r ≤ 63 := (Nat.le_pow_iff_clog_le one_lt_two).1 hrle
    exact ⟨Nat.clog 2 r, hclog, by rw [hss, hcp]⟩

/-- A successful next-storage-size accommodates the request plus the
terminator slot. -/
lemma nextStorageSize_ge (mode : AllocMode) (n ss : Nat)
    (h : nextStorageSize mode n = some ss) (hn : n < U64) :
    n + 1 ≤ ss := by
  have hmax := maxCapacity_eq
  have hu : U64 = 2 ^ 64 := rfl
  cases mode with
  | accurate =>
    by_cases hc : n > maxCapacity
    · simp [nextStorageSize, hc] at h
    · simp only [nextStorageSize, if_neg hc] at h
      have := Option.some_inj.1 h
      omega
  | pow2 =>
    by_cases hc : n > maxCapacity
    · rw [nextStorageSize_none_of_big AllocMode.pow2 n hc hn] at h
      exact absurd h (by simp)
    · rcases Nat.eq_zero_or_pos n with h0 | h0
      · subst h0
        have hz : nextStorageSize AllocMode.pow2 0 = some 1 := by decide
        rw [hz] at h
        have := Option.some_inj.1 h
        omega
      · rw [nextStorageSize_pow2_eq n h0 (by omega)] at h
        have hss : ss = 2 ^ Nat.clog 2 (n + 1) := (Option.some_inj.1 h).symm
        rw [hss]
        exact Nat.le_pow_clog one_lt_two _

lemma take_set_of_le (l : List Nat) (i s : Nat) (v : Nat) (h : s ≤ i) :
    (l.set i v).take s = l.take s := by
  apply List.ext_getElem?
  intro m
  rw [List.getElem?_take, List.getElem?_take]
  by_cases hm : m < s
  · rw [if_pos hm, if_pos hm, List.getElem?_set_ne (by omega)]
  · rw [if_neg hm, if_neg hm]

lemma take_succ_set : ∀ (l : List Nat) (i : Nat) (v : Nat), i < l.length →
    (l.set i v).take (i + 1) = l.take i ++ [v]
  | [], i, v, h => by simp at h
  | a :: t, 0, v, _ => by simp
  | a :: t, i + 1, v, h => by
    have ih := take_succ_set t i v (by simpa using h)
    show (a :: t.set i v).take (i + 2) = (a :: t.take i) ++ [v]
    simp only [List.take_succ_cons, List.cons_append, ih]

lemma writeAt_length : ∀ (vs l : List Nat) (pos : Nat),
    (writeAt l pos vs).length = l.length
  | [], _, _ => rfl
  | v :: rest, l, pos => by
    simp only [writeAt]
    rw [writeAt_length rest _ _, List.length_set]

lemma writeAt_take_of_le : ∀ (vs l : List Nat) (pos s : Nat), s ≤ pos →
    (writeAt l pos vs).take s = l.take s
  | [], _, _, _, _ => rfl
  | v :: rest, l, pos, s, h => by
    simp only [writeAt]
    rw [writeAt_take_of_le rest _ _ _ (by omega), take_set_of_le l pos s v h]

lemma writeAt_take_eq : ∀ (vs l : List Nat) (pos : Nat),
    pos + vs.length ≤ l.length →
    (writeAt l pos vs).take (pos + vs.length) = l.take pos ++ vs
  | [], l, pos, _ => by simp [writeAt]
  | v :: rest, l, pos, h => by
    have hlen : pos < l.length := by
      simp only [List.length_cons] at h
      omega
    have ih := writeAt_take_eq rest (l.set pos v) (pos + 1)
      (by rw [List.length_set]; simp only [List.length_cons] at h; omega)
    simp only [writeAt]
    have harith : pos + (v :: rest).length = pos + 1 + rest.length := by
      simp only [List.length_cons]; omega
    rw [harith, ih, take_succ_set l pos v hlen]
    simp

lemma drop_take_set_of_le (l : List Nat) (i v a n : Nat) (h : a + n ≤ i) :
    ((l.set i v).drop a).take n = (l.drop a).take n := by
  apply List.ext_getElem?
  intro m
  rw [List.getElem?_take, List.getElem?_take]
  by_cases hm : m < n
  · rw [if_pos hm, if_pos hm, List.getElem?_drop, List.getElem?_drop,
      List.getElem?_set_ne (by omega)]
  · rw [if_neg hm, if_neg hm]

/-- The forward copy loop over aliasing source and destination ranges
acts like a copy of a pre-made snapshot of the source range, provided
the source range ends no later than the destination range begins (reads
never observe writes). -/
lemma copyWithin_eq_writeAt : ∀ (n : Nat) (l : List Nat) (src dst : Nat),
    src + n ≤ dst → dst + n ≤ l.length →
    copyWithin l src dst n = writeAt l dst ((l.drop src).take n)
  | 0, l, src, dst, _, _ => by simp [copyWithin, writeAt]
  | n + 1, l, src, dst, h1, h2 => by
    have hsrc : src < l.length := by omega
    have hgd : l.getD src 0 = l[src] := List.getD_eq_getElem l 0 hsrc
    have hdrop : l.drop src = l[src] :: l.drop (src + 1) :=
      List.drop_eq_getElem_cons hsrc
    have ih := copyWithin_eq_writeAt n (l.set dst (l.getD src 0)) (src + 1)
      (dst + 1) (by omega) (by rw [List.length_set]; omega)
    simp only [copyWithin]
    rw [ih, drop_take_set_of_le l dst (l.getD src 0) (src + 1) n (by omega),
      hdrop, List.take_succ_cons]
    simp only [writeAt]
    rw [hgd]

/-- C6: borrowing the tail of a buffer of size s, writing the k given
values at the borrowed position, and returning the pointer k elements
past the borrowed position yields size exactly s + k and leaves the
first s elements of the storage untouched. -/
theorem borrow_return_tail_roundtrip (b : FSB) (data vals : List Nat)
    (k : Nat) (hbuf : b.buf = some data) (hwf : WF b)
    (hk : vals.length = k) (hcap : b.bsize + k ≤ b.capacity) :
    (returnTailSt (writeTailSt b vals) (borrowTailSt b + k)).bsize =
      b.bsize + k ∧
    ((returnTailSt (writeTailSt b vals) (borrowTailSt b + k)).buf.getD
        []).take b.bsize = data.take b.bsize := by
  refine ⟨rfl, ?_⟩
  simp only [returnTailSt, writeTailSt, hbuf, Option.getD_some]
  exact writeAt_take_of_le vals data b.bsize b.bsize (le_refl _)

/-- Witness for borrow_return_tail_roundtrip: a buffer of capacity 7
holding [9, 9], two values written through the borrowed tail, the tail
returned 2 elements further: size is 4, the prior content unchanged. -/
theorem borrow_return_tail_roundtrip_witness :
    ((FSB.mk (some [9, 9, 0, 0, 0, 0, 0, 0]) 2 7).buf =
        some [9, 9, 0, 0, 0, 0, 0, 0] ∧
      WF (FSB.mk (some [9, 9, 0, 0, 0, 0, 0, 0]) 2 7) ∧
      ([4, 5] : List Nat).length = 2 ∧
      (FSB.mk (some [9, 9, 0, 0, 0, 0, 0, 0]) 2 7).bsize + 2 ≤
        (FSB.mk (some [9, 9, 0, 0, 0, 0, 0, 0]) 2 7).capacity) ∧
    (returnTailSt
        (writeTailSt (FSB.mk (some [9, 9, 0, 0, 0, 0, 0, 0]) 2 7) [4, 5])
        (borrowTailSt (FSB.mk (some [9, 9, 0, 0, 0, 0, 0, 0]) 2 7) + 2)).bsize
      = (FSB.mk (some [9, 9, 0, 0, 0, 0, 0, 0]) 2 7).bsize + 2 ∧
    ((returnTailSt
        (writeTailSt (FSB.mk (some [9, 9, 0, 0, 0, 0, 0, 0]) 2 7) [4, 5])
        (borrowTailSt (FSB.mk (some [9, 9, 0, 0, 0, 0, 0, 0]) 2 7) + 2)).buf.getD
        []).take (FSB.mk (some [9, 9, 0, 0, 0, 0, 0, 0]) 2 7).bsize =
      ([9, 9, 0, 0, 0, 0, 0, 0] : List Nat).take
        (FSB.mk (some [9, 9, 0, 0, 0, 0, 0, 0]) 2 7).bsize :=
  ⟨⟨rfl, by decide, rfl, by decide⟩,
    borrow_return_tail_roundtrip (FSB.mk (some [9, 9, 0, 0, 0, 0, 0, 0]) 2 7)
      [9, 9, 0, 0, 0, 0, 0, 0] [4, 5] 2 rfl (by decide) rfl (by decide)⟩

/-- C7: c_str() on a never-allocated buffer returns the shared static
single zero element; on an allocated buffer it writes the zero
terminator at index size() - strictly inside the capacity + 1 storage
block - and the returned view is the logical content followed by a
zero element. -/
theorem cStr_null_terminated (b : FSB) (hwf : WF b) :
    (b.buf = none → cStrSt b = emptyStatic ∧ emptyStatic = [0]) ∧
    (∀ data, b.buf = some data →
      b.bsize < data.length ∧
      (cStrSt b).length = data.length ∧
      (cStrSt b).take (b.bsize + 1) = data.take b.bsize ++ [0]) := by
  obtain ⟨hnull, hsz, hlen⟩ := hwf
  constructor
  · intro h
    simp [cStrSt, h, emptyStatic]
  · intro data hd
    have hdl : data.length = b.capacity + 1 := by
      rw [hd] at hlen
      simpa using hlen
    have hblt : b.bsize < data.length := by omega
    refine ⟨hblt, ?_, ?_⟩
    · simp [cStrSt, hd, List.length_set]
    · simp only [cStrSt, hd]
      exact take_succ_set data b.bsize 0 hblt

/-- Witness for cStr_null_terminated: the buffer holding [1, 2, 3] in
a capacity-7 block has its terminator written at index 3 and the view
is [1, 2, 3, 0]. -/
theorem cStr_null_terminated_witness :
    WF (FSB.mk (some [1, 2, 3, 0, 0, 0, 0, 0]) 3 7) ∧
    ((FSB.mk (some [1, 2, 3, 0, 0, 0, 0, 0]) 3 7).buf = none →
      cStrSt (FSB.mk (some [1, 2, 3, 0, 0, 0, 0, 0]) 3 7) = emptyStatic ∧
      emptyStatic = [0]) ∧
    (∀ data, (FSB.mk (some [1, 2, 3, 0, 0, 0, 0, 0]) 3 7).buf = some data →
      (FSB.mk (some [1, 2, 3, 0, 0, 0, 0, 0]) 3 7).bsize < data.length ∧
      (cStrSt (FSB.mk (some [1, 2, 3, 0, 0, 0, 0, 0]) 3 7)).length =
        data.length ∧
      (cStrSt (FSB.mk (some [1, 2, 3, 0, 0, 0, 0, 0]) 3 7)).take
          ((FSB.mk (some [1, 2, 3, 0, 0, 0, 0, 0]) 3 7).bsize + 1) =
        data.take (FSB.mk (some [1, 2, 3, 0, 0, 0, 0, 0]) 3 7).bsize ++
          [0]) :=
  ⟨by decide,
    (cStr_null_terminated (FSB.mk (some [1, 2, 3, 0, 0, 0, 0, 0]) 3 7)
      (by decide)).1,
    (cStr_null_terminated (FSB.mk (some [1, 2, 3, 0, 0, 0, 0, 0]) 3 7)
      (by decide)).2⟩

/-- C8: appending the view obtained from the buffer's own c_str() (its
base pointer with count size()) through the forward element-wise copy
produces the same size and the same final content as appending an
independent snapshot of those elements. -/
theorem self_append_matches_snapshot (b : FSB) (data : List Nat)
    (hbuf : b.buf = some data) (hwf : WF b)
    (hcap : b.bsize + b.bsize ≤ b.capacity) :
    (selfAppendSt b).bsize = (appendSt b (data.take b.bsize)).bsize ∧
    ((selfAppendSt b).buf.getD []).take (b.bsize + b.bsize) =
      ((appendSt b (data.take b.bsize)).buf.getD []).take
        (b.bsize + b.bsize) ∧
    ((appendSt b (data.take b.bsize)).buf.getD []).take
        (b.bsize + b.bsize) = data.take b.bsize ++ data.take b.bsize := by
  obtain ⟨hnull, hsz, hlenwf⟩ := hwf
  have hdl : data.length = b.capacity + 1 := by
    rw [hbuf] at hlenwf
    simpa using hlenwf
  have hsl : b.bsize ≤ data.length := by omega
  have htl : (data.take b.bsize).length = b.bsize := List.length_take_of_le hsl
  have hcs : cStrSt b = data.set b.bsize 0 := by simp [cStrSt, hbuf]
  have hcw : copyWithin (data.set b.bsize 0) 0 b.bsize b.bsize =
      writeAt (data.set b.bsize 0) b.bsize
        (((data.set b.bsize 0).drop 0).take b.bsize) :=
    copyWithin_eq_writeAt b.bsize (data.set b.bsize 0) 0 b.bsize (by omega)
      (by rw [List.length_set]; omega)
  have hslice : ((data.set b.bsize 0).drop 0).take b.bsize =
      data.take b.bsize := by
    rw [List.drop_zero _]
    exact take_set_of_le data b.bsize b.bsize 0 (le_refl _)
  have h1 : (writeAt (data.set b.bsize 0) b.bsize (data.take b.bsize)).take
      (b.bsize + b.bsize) = data.take b.bsize ++ data.take b.bsize := by
    have hw := writeAt_take_eq (data.take b.bsize) (data.set b.bsize 0)
      b.bsize (by rw [List.length_set, htl]; omega)
    rw [htl] at hw
    rw [hw, take_set_of_le data b.bsize b.bsize 0 (le_refl _)]
  have h2 : (writeAt data b.bsize (data.take b.bsize)).take
      (b.bsize + b.bsize) = data.take b.bsize ++ data.take b.bsize := by
    have hw := writeAt_take_eq (data.take b.bsize) data b.bsize
      (by rw [htl]; omega)
    rw [htl] at hw
    exact hw
  refine ⟨?_, ?_, ?_⟩
  · simp [selfAppendSt, appendSt, hbuf, htl]
  · simp only [selfAppendSt, appendSt, hbuf, Option.getD_some]
    rw [hcs, hcw, hslice, h1, h2]
  · simp only [appendSt, hbuf, Option.getD_some]
    exact h2

/-- Witness for self_append_matches_snapshot: the buffer holding [1, 2]
in a capacity-4 block, self-appended: both the aliasing forward copy
and the snapshot append give content [1, 2, 1, 2] and size 4. -/
theorem self_append_matches_snapshot_witness :
    ((FSB.mk (some [1, 2, 0, 0, 0]) 2 4).buf = some [1, 2, 0, 0, 0] ∧
      WF (FSB.mk (some [1, 2, 0, 0, 0]) 2 4) ∧
      (FSB.mk (some [1, 2, 0, 0, 0]) 2 4).bsize +
          (FSB.mk (some [1, 2, 0, 0, 0]) 2 4).bsize ≤
        (FSB.mk (some [1, 2, 0, 0, 0]) 2 4).capacity) ∧
    (selfAppendSt (FSB.mk (some [1, 2, 0, 0, 0]) 2 4)).bsize =
      (appendSt (FSB.mk (some [1, 2, 0, 0, 0]) 2 4)
        (([1, 2, 0, 0, 0] : List Nat).take 2)).bsize ∧
    ((selfAppendSt (FSB.mk (some [1, 2, 0, 0, 0]) 2 4)).buf.getD []).take 4 =
      (([1, 2, 0, 0, 0] : List Nat).take 2) ++
        (([1, 2, 0, 0, 0] : List Nat).take 2) :=
  ⟨⟨rfl, by decide, by decide⟩,
    (self_append_matches_snapshot (FSB.mk (some [1, 2, 0, 0, 0]) 2 4)
      [1, 2, 0, 0, 0] rfl (by decide) (by decide)).1,
    by decide⟩

/-- A successful reserve preserves the size and never decreases the
capacity: it is a no-op when capacity suffices, and otherwise expands
to a storage size at least n + 1. -/
lemma reserveSt_success (mode : AllocMode) (allocOk : Bool) (n : Nat)
    (b b2 : FSB) (h : reserveSt mode allocOk n b = (b2, true))
    (hn : n < U64) :
    b2.bsize = b.bsize ∧ b.capacity ≤ b2.capacity := by
  unfold reserveSt at h
  by_cases hc : b.capacity < n
  · rw [if_pos hc] at h
    unfold expandToSt at h
    cases hns : nextStorageSize mode n with
    | none =>
      rw [hns] at h
      simp at h
    | some ss =>
      rw [hns] at h
      cases allocOk with
      | false => simp at h
      | true =>
        have h2 : FSB.mk (some (reallocList (b.buf.getD []) ss)) b.bsize
            (ss - 1) = b2 := congrArg Prod.fst h
        have hge := nextStorageSize_ge mode n ss hns hn
        rw [← h2]
        exact ⟨rfl, by show b.capacity ≤ ss - 1; omega⟩
  · rw [if_neg hc] at h
    have h2 : b = b2 := congrArg Prod.fst h
    rw [← h2]
    exact ⟨rfl, le_refl _⟩

lemma runOps_size_cap : ∀ (ops : List BufOp) (b0 b1 : FSB),
    runOps ops b0 = some b1 →
    b1.bsize = b0.bsize + sumAppends ops ∧ b0.capacity ≤ b1.capacity := by
  intro ops
  induction ops with
  | nil =>
    intro b0 b1 h
    simp only [runOps, Option.some_inj] at h
    subst h
    simp [sumAppends]
  | cons op rest ih =>
    cases op with
    | reserve n =>
      intro b0 b1 h
      simp only [runOps] at h
      by_cases hn : n < U64
      · rw [if_pos hn] at h
        rcases hr : reserveSt AllocMode.pow2 true n b0 with ⟨b2, ok⟩
        rw [hr] at h
        cases ok with
        | false => simp at h
        | true =>
          have h3 : runOps rest b2 = some b1 := h
          obtain ⟨hsz, hcap⟩ := reserveSt_success AllocMode.pow2 true n b0 b2
            hr hn
          obtain ⟨hsz2, hcap2⟩ := ih b2 b1 h3
          refine ⟨?_, le_trans hcap hcap2⟩
          rw [hsz2, hsz]
          simp [sumAppends]
      · rw [if_neg hn] at h
        simp at h
    | append vs =>
      intro b0 b1 h
      simp only [runOps] at h
      by_cases hc : b0.bsize + vs.length ≤ b0.capacity
      · rw [if_pos hc] at h
        obtain ⟨hsz2, hcap2⟩ := ih (appendSt b0 vs) b1 h
        refine ⟨?_, ?_⟩
        · rw [hsz2]
          simp [appendSt, sumAppends]
          omega
        · exact le_trans (le_refl _) hcap2
      · rw [if_neg hc] at h
        simp at h

lemma runOps_append_split : ∀ (l1 l2 : List BufOp) (b : FSB),
    runOps (l1 ++ l2) b = (runOps l1 b).bind (runOps l2) := by
  intro l1
  induction l1 with
  | nil =>
    intro l2 b
    simp [runOps]
  | cons op rest ih =>
    intro l2 b
    cases op with
    | reserve n =>
      simp only [List.cons_append, runOps]
      by_cases hn : n < U64
      · rw [if_pos hn, if_pos hn]
        rcases hr : reserveSt AllocMode.pow2 true n b with ⟨b2, ok⟩
        cases ok with
        | false => simp
        | true => simp [ih]
      · rw [if_neg hn, if_neg hn]
        simp
    | append vs =>
      simp only [List.cons_append, runOps]
      by_cases hc : b.bsize + vs.length ≤ b.capacity
      · rw [if_pos hc, if_pos hc]
        exact ih l2 (appendSt b vs)
      · rw [if_neg hc, if_neg hc]
        simp

/-- C5: running any in-contract sequence of reserve/append calls from
the empty buffer yields a final size equal to the sum of the appended
counts, and the capacity observed after any prefix of the sequence is
never larger than the capacity after any extension of that prefix
(capacity never decreases at any step). -/
theorem reserve_append_size_sum_cap_mono (ops : List BufOp) (b : FSB)
    (h : runOps ops emptyFSB = some b) :
    b.bsize = sumAppends ops ∧
    ∀ ops1 ops2 b1, ops = ops1 ++ ops2 → runOps ops1 emptyFSB = some b1 →
      b1.capacity ≤ b.capacity := by
  constructor
  · have hmain := runOps_size_cap ops emptyFSB b h
    simpa [emptyFSB] using hmain.1
  · intro ops1 ops2 b1 hsplit h1
    subst hsplit
    rw [runOps_append_split ops1 ops2 emptyFSB, h1] at h
    simp only [Option.some_bind] at h
    exact (runOps_size_cap ops2 b1 b h).2

/-- Witness for reserve_append_size_sum_cap_mono: the sequence
reserve(5); append [1,2,3]; append [4,5] ends with size 5 = 3 + 2. -/
theorem reserve_append_size_sum_cap_mono_witness :
    runOps [BufOp.reserve 5, BufOp.append [1, 2, 3], BufOp.append [4, 5]]
        emptyFSB = some (FSB.mk (some [1, 2, 3, 4, 5, 0, 0, 0]) 5 7) ∧
    (FSB.mk (some [1, 2, 3, 4, 5, 0, 0, 0]) 5 7).bsize =
      sumAppends [BufOp.reserve 5, BufOp.append [1, 2, 3],
        BufOp.append [4, 5]] :=
  ⟨by decide,
    (reserve_append_size_sum_cap_mono
      [BufOp.reserve 5, BufOp.append [1, 2, 3], BufOp.append [4, 5]]
      (FSB.mk (some [1, 2, 3, 4, 5, 0, 0, 0]) 5 7) (by decide)).1⟩

/-- Every reachable capacity of the pow2 instantiation is 0 or a power
of two minus one, and never exceeds maxCapacity. -/
lemma reachable_cap_inv (b : FSB) (h : Reachable b) :
    (b.capacity = 0 ∨ ∃ k, k ≤ 63 ∧ b.capacity = 2 ^ k - 1) ∧
      b.capacity ≤ maxCapacity := by
  have hmax := maxCapacity_eq
  induction h with
  | empty => exact ⟨Or.inl rfl, Nat.zero_le _⟩
  | sized allocOk n b hctor =>
    unfold sizedCtor at hctor
    by_cases hn : 0 < n
    · rw [if_pos hn] at hctor
      cases hns : nextStorageSize AllocMode.pow2 n with
      | none =>
        rw [hns] at hctor
        simp at hctor
      | some ss =>
        rw [hns] at hctor
        cases allocOk with
        | false => simp at hctor
        | true =>
          have hb : FSB.mk (some (List.replicate ss 0)) 0 (ss - 1) = b :=
            congrArg Prod.fst hctor
          obtain ⟨k, hk63, hss⟩ := nextStorageSize_pow2_isPow n ss hns
          have hcapv : b.capacity = ss - 1 := by rw [← hb]
          have hle : ss ≤ 2 ^ 63 := by
            rw [hss]
            exact Nat.pow_le_pow_right (by norm_num) hk63
          exact ⟨Or.inr ⟨k, hk63, by omega⟩, by omega⟩
    · rw [if_neg hn] at hctor
      have hb : emptyFSB = b := congrArg Prod.fst hctor
      rw [← hb]
      exact ⟨Or.inl rfl, Nat.zero_le _⟩
  | reserve allocOk n b b2 hb hn hres ih =>
    unfold reserveSt at hres
    by_cases hc : b.capacity < n
    · rw [if_pos hc] at hres
      unfold expandToSt at hres
      cases hns : nextStorageSize AllocMode.pow2 n with
      | none =>
        rw [hns] at hres
        simp at hres
      | some ss =>
        rw [hns] at hres
        cases allocOk with
        | false => simp at hres
        | true =>
          have hb2 : FSB.mk (some (reallocList (b.buf.getD []) ss)) b.bsize
              (ss - 1) = b2 := congrArg Prod.fst hres
          obtain ⟨k, hk63, hss⟩ := nextStorageSize_pow2_isPow n ss hns
          have hcapv : b2.capacity = ss - 1 := by rw [← hb2]
          have hle : ss ≤ 2 ^ 63 := by
            rw [hss]
            exact Nat.pow_le_pow_right (by norm_num) hk63
          exact ⟨Or.inr ⟨k, hk63, by omega⟩, by omega⟩
    · rw [if_neg hc] at hres
      have hb2 : b = b2 := congrArg Prod.fst hres
      rw [← hb2]
      exact ih
  | reserveForOne allocOk b b2 hb hres ih =>
    unfold reserveForOneSt at hres
    by_cases hful : b.bsize = b.capacity
    · rw [if_pos hful] at hres
      unfold expandOneSt at hres
      by_cases hm : b.capacity = maxCapacity
      · rw [if_pos hm] at hres
        simp at hres
      · rw [if_neg hm] at hres
        cases allocOk with
        | false => simp at hres
        | true =>
          rw [if_pos rfl, Prod.mk.injEq] at hres
          obtain ⟨hb2, -⟩ := hres
          have hcapv : b2.capacity = (b.capacity * 2 + 1) % U64 := by
            rw [← hb2]
          have hu : U64 = 2 ^ 64 := rfl
          rcases ih.1 with h0 | ⟨k, hk63, hk⟩
          · have hone : b2.capacity = 1 := by
              rw [hcapv, h0]
              decide
            refine ⟨Or.inr ⟨1, by omega, by rw [hone]; decide⟩, by omega⟩
          · have hcap_le : b.capacity ≤ maxCapacity := ih.2
            have hk1 : 1 ≤ 2 ^ k := Nat.one_le_two_pow
            have hklt : 2 ^ k < 2 ^ 63 := by omega
            have hk62 : k ≤ 62 := by
              by_contra hgt
              push_neg at hgt
              have : (2 : Nat) ^ 63 ≤ 2 ^ k :=
                Nat.pow_le_pow_right (by norm_num) (by omega)
              omega
            have hk1le : (2 : Nat) ^ (k + 1) ≤ 2 ^ 63 :=
              Nat.pow_le_pow_right (by norm_num) (by omega)
            have h2k1 : (2 : Nat) ^ (k + 1) = 2 * 2 ^ k := by
              rw [pow_succ]; ring
            have hnew : b2.capacity = 2 ^ (k + 1) - 1 := by
              rw [hcapv, hk]
              rw [Nat.mod_eq_of_lt (by omega)]
              omega
            exact ⟨Or.inr ⟨k + 1, by omega, hnew⟩, by omega⟩
    · rw [if_neg hful, Prod.mk.injEq] at hres
      obtain ⟨hb2, -⟩ := hres
      rw [← hb2]
      exact ih
  | append vals b hb hpre ih => exact ih
  | clear b hb ih => exact ih
  | resize n b hb hpre ih => exact ih
  | returnTail p b hb hpre ih => exact ih
  | writeTail vals b hb hpre ih => exact ih
  | detach b hb ih => exact ih

/-- C10: every reachable capacity of a pow2 buffer is 0, a power of two
minus one, or maxCapacity, and for every reachable buffer not yet at
maxCapacity the doubling step newCapacity = 2*capacity + 1 of
reserveForOne stays within maxCapacity and does not overflow the size
type. -/
theorem reachable_capacity_pow2_inv (b : FSB) (h : Reachable b) :
    (b.capacity = 0 ∨ (∃ k, b.capacity = 2 ^ k - 1) ∨
      b.capacity = maxCapacity) ∧
    (b.capacity < maxCapacity →
      b.capacity * 2 + 1 ≤ maxCapacity ∧ b.capacity * 2 + 1 < U64 ∧
      (b.capacity * 2 + 1) % U64 = b.capacity * 2 + 1) := by
  have hinv := reachable_cap_inv b h
  have hmax := maxCapacity_eq
  have hu : U64 = 2 ^ 64 := rfl
  constructor
  · rcases hinv.1 with h0 | ⟨k, hk63, hk⟩
    · exact Or.inl h0
    · exact Or.inr (Or.inl ⟨k, hk⟩)
  · intro hlt
    rcases hinv.1 with h0 | ⟨k, hk63, hk⟩
    · refine ⟨by omega, by omega, Nat.mod_eq_of_lt (by omega)⟩
    · have hk1 : 1 ≤ 2 ^ k := Nat.one_le_two_pow
      have hklt : 2 ^ k < 2 ^ 63 := by omega
      have hk62 : k ≤ 62 := by
        by_contra hgt
        push_neg at hgt
        have : (2 : Nat) ^ 63 ≤ 2 ^ k :=
          Nat.pow_le_pow_right (by norm_num) (by omega)
        omega
      have hk1le : (2 : Nat) ^ (k + 1) ≤ 2 ^ 63 :=
        Nat.pow_le_pow_right (by norm_num) (by omega)
      have h2k1 : (2 : Nat) ^ (k + 1) = 2 * 2 ^ k := by
        rw [pow_succ]; ring
      refine ⟨by omega, by omega, Nat.mod_eq_of_lt (by omega)⟩

/-- Witness for reachable_capacity_pow2_inv: the capacity-7 buffer
reached by reserve(5) from the empty buffer. -/
theorem reachable_capacity_pow2_inv_witness :
    ((FSB.mk (some (List.replicate 8 0)) 0 7).capacity = 0 ∨
      (∃ k, (FSB.mk (some (List.replicate 8 0)) 0 7).capacity = 2 ^ k - 1) ∨
      (FSB.mk (some (List.replicate 8 0)) 0 7).capacity = maxCapacity) ∧
    ((FSB.mk (some (List.replicate 8 0)) 0 7).capacity < maxCapacity →
      (FSB.mk (some (List.replicate 8 0)) 0 7).capacity * 2 + 1 ≤
          maxCapacity ∧
      (FSB.mk (some (List.replicate 8 0)) 0 7).capacity * 2 + 1 < U64 ∧
      ((FSB.mk (some (List.replicate 8 0)) 0 7).capacity * 2 + 1) % U64 =
        (FSB.mk (some (List.replicate 8 0)) 0 7).capacity * 2 + 1) :=
  reachable_capacity_pow2_inv (FSB.mk (some (List.replicate 8 0)) 0 7)
    (Reachable.reserve true 5 emptyFSB (FSB.mk (some (List.replicate 8 0)) 0 7)
      Reachable.empty (by decide) (by decide))

/-- C1: the claim (and the spec) say detach() resets the buffer to the
default empty state, in particular capacity() == 0, so that the
invariant (null storage implies size == capacity == 0) holds after
detach.  The source nulls m_buf and m_bufEnd but leaves m_capacity
untouched: on the buffer produced by reserve(5) (capacity 7), after
detach() the storage pointer is null and size() == 0, yet capacity()
is still 7, violating the claimed invariant. -/
theorem detach_keeps_stale_capacity :
    (detachSt (reserveSt AllocMode.pow2 true 5 emptyFSB).1).2.buf = none ∧
    (detachSt (reserveSt AllocMode.pow2 true 5 emptyFSB).1).2.bsize = 0 ∧
    (detachSt (reserveSt AllocMode.pow2 true 5 emptyFSB).1).2.capacity = 7 ∧
    ¬ ((detachSt (reserveSt AllocMode.pow2 true 5 emptyFSB).1).2.capacity
        = 0) := by
  decide

/-- C9, counterexample: for element width 1 (the char instantiation)
the source computes min(SIZE_MAX / 1 - 1, PTRDIFF_MAX) = 2^63 - 1,
whereas the claimed formula min(SIZE_MAX / 1, PTRDIFF_MAX) - 1 gives
2^63 - 2: the terminator subtraction is not applied to the minimum of
the two limits. -/
theorem maxCapacity_formula_counterexample :
    maxCapacityW 1 ≠ specMaxCapacityW 1 := by decide

/-- C9, amended: maxCapacity subtracts the terminator slot from the
address-space element ceiling only, before taking the minimum with the
size-type element-count limit; equivalently, maxCapacity is the
greatest capacity c such that c + 1 elements of width w fit into the
size type and c is addressable by ptrdiff_t. -/
theorem maxCapacity_greatest (w : Nat) (h1 : 1 ≤ w) (h2 : w ≤ sizeTMax) :
    ((maxCapacityW w + 1) * w ≤ sizeTMax ∧ maxCapacityW w ≤ ptrdiffMax) ∧
    ∀ c, (c + 1) * w ≤ sizeTMax → c ≤ ptrdiffMax → c ≤ maxCapacityW w := by
  refine ⟨⟨?_, min_le_right _ _⟩, ?_⟩
  · have hdiv : 1 ≤ sizeTMax / w := (Nat.one_le_div_iff (by omega)).2 h2
    have hle : maxCapacityW w + 1 ≤ sizeTMax / w := by
      have := min_le_left (sizeTMax / w - 1) ptrdiffMax
      unfold maxCapacityW
      omega
    calc (maxCapacityW w + 1) * w
        ≤ sizeTMax / w * w := Nat.mul_le_mul_right _ hle
      _ ≤ sizeTMax := Nat.div_mul_le_self _ _
  · intro c hc hp
    have hcd : c + 1 ≤ sizeTMax / w := (Nat.le_div_iff_mul_le (by omega)).2 hc
    exact le_min (by omega) hp

/-- Witness for maxCapacity_greatest at w = 1. -/
theorem maxCapacity_greatest_witness :
    (1 ≤ 1 ∧ 1 ≤ sizeTMax) ∧
    (((maxCapacityW 1 + 1) * 1 ≤ sizeTMax ∧ maxCapacityW 1 ≤ ptrdiffMax) ∧
     ∀ c, (c + 1) * 1 ≤ sizeTMax → c ≤ ptrdiffMax → c ≤ maxCapacityW 1) :=
  ⟨⟨le_refl 1, by decide⟩, maxCapacity_greatest 1 (le_refl 1) (by decide)⟩

/-- C2, counterexample: reserve(10) on an empty pow2 buffer yields
capacity 15; a subsequent successful reserve(5) is a no-op and leaves
capacity 15, which is not the smallest power-of-two-minus-one value
that is >= 5 (that value is 7), refuting the claim as stated for
reserve on an arbitrary buffer. -/
theorem reserve_noop_not_min_pow2 :
    reserveSt AllocMode.pow2 true 10 emptyFSB =
      (FSB.mk (some (List.replicate 16 0)) 0 15, true) ∧
    reserveSt AllocMode.pow2 true 5 (FSB.mk (some (List.replicate 16 0)) 0 15)
      = (FSB.mk (some (List.replicate 16 0)) 0 15, true) ∧
    ¬ IsMinPow2Sub1 5 (FSB.mk (some (List.replicate 16 0)) 0 15).capacity := by
  refine ⟨by decide, by decide, ?_⟩
  rintro ⟨-, -, hmin⟩
  have h7 : (15 : Nat) ≤ 7 := hmin 7 ⟨3, by norm_num⟩ (by norm_num)
  omega

/-- C2, amended: under the power-of-two growth policy, for every
non-zero requested capacity n <= maxCapacity, a successful sized
construction, or a successful reserve(n) on a buffer whose current
capacity is below n, yields a capacity that is a power of two minus
one (storage size a power of two) and the smallest such value >= n. -/
theorem pow2_growth_min_pow2_sub1 (n : Nat) (b : FSB) (h1 : 1 ≤ n)
    (h2 : n ≤ maxCapacity) (h3 : b.capacity < n) :
    (sizedCtor AllocMode.pow2 true n).2 = true ∧
    IsMinPow2Sub1 n (sizedCtor AllocMode.pow2 true n).1.capacity ∧
    (reserveSt AllocMode.pow2 true n b).2 = true ∧
    IsMinPow2Sub1 n (reserveSt AllocMode.pow2 true n b).1.capacity := by
  have hns := nextStorageSize_pow2_eq n h1 h2
  have hmin : IsMinPow2Sub1 n (2 ^ Nat.clog 2 (n + 1) - 1) := by
    have hpos : 1 ≤ 2 ^ Nat.clog 2 (n + 1) := Nat.one_le_two_pow
    have hge : n + 1 ≤ 2 ^ Nat.clog 2 (n + 1) := Nat.le_pow_clog one_lt_two _
    refine ⟨⟨Nat.clog 2 (n + 1), by omega⟩, by omega, ?_⟩
    rintro m ⟨k, hk⟩ hm
    have hnk : n + 1 ≤ 2 ^ k := by omega
    have hck : Nat.clog 2 (n + 1) ≤ k :=
      (Nat.le_pow_iff_clog_le one_lt_two).1 hnk
    have hpk : 2 ^ Nat.clog 2 (n + 1) ≤ 2 ^ k :=
      Nat.pow_le_pow_right (by norm_num) hck
    omega
  have hctor : sizedCtor AllocMode.pow2 true n =
      ({ buf := some (List.replicate (2 ^ Nat.clog 2 (n + 1)) 0), bsize := 0,
         capacity := 2 ^ Nat.clog 2 (n + 1) - 1 }, true) := by
    unfold sizedCtor
    rw [if_pos (show 0 < n by omega), hns]
    rfl
  have hres : reserveSt AllocMode.pow2 true n b =
      ({ buf := some (reallocList (b.buf.getD []) (2 ^ Nat.clog 2 (n + 1))),
         bsize := b.bsize, capacity := 2 ^ Nat.clog 2 (n + 1) - 1 }, true) := by
    unfold reserveSt expandToSt
    rw [if_pos h3, hns]
    rfl
  exact ⟨by rw [hctor], by rw [hctor]; exact hmin, by rw [hres],
    by rw [hres]; exact hmin⟩

/-- Witness for pow2_growth_min_pow2_sub1: reserve(5) on the empty
buffer succeeds with capacity 7, the smallest power of two minus one
that is >= 5 (the worked example of the spec). -/
theorem pow2_growth_min_pow2_sub1_witness :
    (1 ≤ 5 ∧ 5 ≤ maxCapacity ∧ emptyFSB.capacity < 5) ∧
    (reserveSt AllocMode.pow2 true 5 emptyFSB).2 = true ∧
    (reserveSt AllocMode.pow2 true 5 emptyFSB).1.capacity = 7 ∧
    IsMinPow2Sub1 5 (reserveSt AllocMode.pow2 true 5 emptyFSB).1.capacity :=
  ⟨⟨by decide, by decide, by decide⟩,
    (pow2_growth_min_pow2_sub1 5 emptyFSB (by decide) (by decide)
      (by decide)).2.2.1,
    by decide,
    (pow2_growth_min_pow2_sub1 5 emptyFSB (by decide) (by decide)
      (by decide)).2.2.2⟩

/-- C3: every growth request that fails - a requested logical capacity
above maxCapacity (either policy), a failing allocator, or a full
buffer already at maxCapacity - signals the failure and returns the
buffer with content, size and capacity exactly as they were (for the
sized constructor there is no prior buffer; no object is produced). -/
theorem growth_failure_atomic (mode : AllocMode) (b : FSB) (allocOk : Bool)
    (hbc : b.capacity ≤ maxCapacity) :
    (∀ n, maxCapacity < n → n < U64 →
      reserveSt mode allocOk n b = (b, false)) ∧
    (∀ n, b.capacity < n → reserveSt mode false n b = (b, false)) ∧
    (∀ n, maxCapacity < n → n < U64 →
      sizedCtor mode allocOk n = (emptyFSB, false)) ∧
    (∀ n, 0 < n → sizedCtor mode false n = (emptyFSB, false)) ∧
    (b.bsize = b.capacity → b.capacity = maxCapacity →
      reserveForOneSt mode allocOk b = (b, false)) ∧
    (b.bsize = b.capacity → reserveForOneSt mode false b = (b, false)) := by
  refine ⟨?_, ?_, ?_, ?_, ?_, ?_⟩
  · intro n h1 h2
    have hlt : b.capacity < n := by omega
    simp [reserveSt, if_pos hlt, expandToSt,
      nextStorageSize_none_of_big mode n h1 h2]
  · intro n hlt
    simp only [reserveSt, if_pos hlt, expandToSt]
    cases nextStorageSize mode n <;> simp
  · intro n h1 h2
    have hpos : 0 < n := by
      have := maxCapacity_eq
      omega
    simp [sizedCtor, if_pos hpos, nextStorageSize_none_of_big mode n h1 h2]
  · intro n hpos
    simp only [sizedCtor, if_pos hpos]
    cases nextStorageSize mode n <;> simp
  · intro hfull hmaxc
    unfold reserveForOneSt expandOneSt
    rw [if_pos hfull, if_pos hmaxc]
  · intro hfull
    simp only [reserveForOneSt, if_pos hfull, expandOneSt]
    by_cases hm : b.capacity = maxCapacity <;> simp [hm]

/-- Witness for growth_failure_atomic: on the empty buffer, requesting
capacity 2^63 (which exceeds maxCapacity = 2^63 - 1) fails and leaves
the buffer unchanged. -/
theorem growth_failure_atomic_witness :
    emptyFSB.capacity ≤ maxCapacity ∧
    reserveSt AllocMode.pow2 true (2 ^ 63) emptyFSB = (emptyFSB, false) :=
  ⟨by decide,
    (growth_failure_atomic AllocMode.pow2 emptyFSB true (by decide)).1
      (2 ^ 63) (by decide) (by decide)⟩

/-- C4: under the accurate (exact) growth policy, for every request
0 < n <= maxCapacity, a successful sized construction, or reserve(n)
on a buffer whose capacity is below n, yields capacity exactly n and a
storage block of exactly n + 1 elements, the size being preserved. -/
theorem accurate_growth_exact (n : Nat) (b : FSB) (h1 : 0 < n)
    (h2 : n ≤ maxCapacity) (h3 : b.capacity < n) :
    sizedCtor AllocMode.accurate true n =
      ({ buf := some (List.replicate (n + 1) 0), bsize := 0,
         capacity := n }, true) ∧
    reserveSt AllocMode.accurate true n b =
      ({ buf := some (reallocList (b.buf.getD []) (n + 1)), bsize := b.bsize,
         capacity := n }, true) := by
  have hns : nextStorageSize AllocMode.accurate n = some (n + 1) := by
    simp [nextStorageSize, Nat.not_lt.2 h2]
  constructor
  · unfold sizedCtor
    rw [if_pos h1, hns]
    rfl
  · unfold reserveSt expandToSt
    rw [if_pos h3, hns]
    rfl

/-- Witness for accurate_growth_exact: reserve(5) on an empty accurate
buffer yields capacity exactly 5 and storage of 6 elements. -/
theorem accurate_growth_exact_witness :
    (0 < 5 ∧ 5 ≤ maxCapacity ∧ emptyFSB.capacity < 5) ∧
    reserveSt AllocMode.accurate true 5 emptyFSB =
      ({ buf := some (reallocList (emptyFSB.buf.getD []) 6), bsize := 0,
         capacity := 5 }, true) :=
  ⟨⟨by decide, by decide, by decide⟩,
    (accurate_growth_exact 5 emptyFSB (by decide) (by decide)
      (by decide)).2⟩

end Afc
